import Mathlib

/-!
Verification of `update_styles.py` (repository Civil-Zones).

The script reads a file's full text, searches for the first occurrence of
the start marker `"<style>"` and, independently, the first occurrence of the
end marker `"</style>"` (Python `str.find`, sentinel `-1`), and if both are
found it overwrites the file with
`content[:start_index] + link + content[end_index + len(end_tag):]`
and prints a success line; otherwise it leaves the file alone and prints a
failure line.

The embedding below models the file's text as `List Char`, Python's `find`
as `find` (an `Int` with `-1` as the not-found sentinel, built from the
`Option`-valued `findSub`), and one run of the script as `run`, returning
the final file content, the printed status line, and whether the write
happened.
-/

namespace UpdateStyles

/-- The start marker, `start_tag = "<style>"` in the source. -/
def start_tag : List Char := "<style>".toList

/-- The end marker, `end_tag = "</style>"` in the source. -/
def end_tag : List Char := "</style>".toList

/-- The fixed replacement literal written in place of the style block. -/
def linkTag : List Char := "<link rel=\"stylesheet\" href=\"css/styles.css\">".toList

/-- The status line printed on the success branch. -/
def successMsg : List Char := "Successfully replaced style block with link.".toList

/-- The status line printed on the failure branch. -/
def failMsg : List Char := "Could not find style block.".toList

/-- Index of the first position of `s` at which `pat` begins, `none` if there
is no such position.  This is Python's `s.find(pat)` with `none` standing for
the `-1` sentinel. -/
def findSub (pat : List Char) : List Char → Option Nat
  | [] => if pat <+: ([] : List Char) then some 0 else none
  | c :: rest =>
    if pat <+: (c :: rest) then some 0
    else (findSub pat rest).map (fun n => n + 1)

/-- Python's `content.find(pat)`: first index of `pat` in `content`, `-1` when
`pat` does not occur. -/
def find (content pat : List Char) : Int :=
  match findSub pat content with
  | some i => (i : Int)
  | none => -1

/-- Outcome of one run of the script on a file: the file's final text, the
status line printed, and whether the write call happened. -/
structure RunResult where
  fileContent : List Char
  printed : List Char
  wrote : Bool
deriving DecidableEq

/-- One run of the script on a file whose text is `content`, mirroring lines
11 to 21 of `update_styles.py`.  `find` is called on both markers, the branch
is taken on both results differing from `-1`, and on the success branch the
new content is written back. -/
def run (content : List Char) : RunResult :=
  let start_index := find content start_tag
  let end_index := find content end_tag
  if start_index ≠ -1 ∧ end_index ≠ -1 then
    let new_content :=
      content.take start_index.toNat ++ linkTag ++
        content.drop (end_index.toNat + end_tag.length)
    ⟨new_content, successMsg, true⟩
  else
    ⟨content, failMsg, false⟩

/-- Specification-side predicate: `pat` occurs in `s` starting at index `i`. -/
def occursAt (pat s : List Char) (i : Nat) : Prop := pat <+: s.drop i

instance (pat s : List Char) (i : Nat) : Decidable (occursAt pat s i) := by
  unfold occursAt
  infer_instance

/-- Specification-side predicate: `pat` occurs somewhere in `s`. -/
def occurs (pat s : List Char) : Prop := ∃ i, occursAt pat s i

/-- Specification-side predicate: `i` is the first index at which `pat`
occurs in `s`. -/
def firstOccurrenceAt (pat s : List Char) (i : Nat) : Prop :=
  occursAt pat s i ∧ ∀ j < i, ¬ occursAt pat s j

instance (pat s : List Char) (i : Nat) : Decidable (firstOccurrenceAt pat s i) := by
  unfold firstOccurrenceAt
  infer_instance

/-- Specification-side predicate: `pat` occurs in `s` only at index `n`. -/
def uniqueOccurrenceAt (pat s : List Char) (n : Nat) : Prop :=
  ∀ i, occursAt pat s i → i = n

/-- A result of `findSub` is an occurrence. -/
theorem findSub_some_occursAt {pat : List Char} {s : List Char} {i : Nat}
    (h : findSub pat s = some i) : occursAt pat s i := by
  induction s generalizing i with
  | nil =>
    by_cases hp : pat <+: ([] : List Char)
    · simp only [findSub, if_pos hp, Option.some.injEq] at h
      subst h
      simpa [occursAt] using hp
    · simp [findSub, if_neg hp] at h
      obtain ⟨rfl, rfl⟩ := h
      simp [occursAt]
  | cons c rest ih =>
    by_cases hp : pat <+: (c :: rest)
    · simp only [findSub, if_pos hp, Option.some.injEq] at h
      subst h
      simpa [occursAt] using hp
    · simp only [findSub, if_neg hp, Option.map_eq_some'] at h
      obtain ⟨m, hm, rfl⟩ := h
      simpa [occursAt, List.drop_succ_cons] using ih hm

/-- A result of `findSub` is the least occurrence index. -/
theorem findSub_some_min {pat : List Char} {s : List Char} {i : Nat}
    (h : findSub pat s = some i) : ∀ j, occursAt pat s j → i ≤ j := by
  induction s generalizing i with
  | nil =>
    intro j hj
    by_cases hp : pat <+: ([] : List Char)
    · simp only [findSub, if_pos hp, Option.some.injEq] at h
      omega
    · simp [findSub, if_neg hp] at h
      omega
  | cons c rest ih =>
    intro j hj
    by_cases hp : pat <+: (c :: rest)
    · simp only [findSub, if_pos hp, Option.some.injEq] at h
      omega
    · simp only [findSub, if_neg hp, Option.map_eq_some'] at h
      obtain ⟨m, hm, rfl⟩ := h
      cases j with
      | zero => exact absurd (by simpa [occursAt] using hj) hp
      | succ k =>
        have hk : m ≤ k := ih hm k (by simpa [occursAt, List.drop_succ_cons] using hj)
        omega

/-- When `findSub` fails, there is no occurrence at all. -/
theorem findSub_none {pat : List Char} {s : List Char}
    (h : findSub pat s = none) : ∀ j, ¬ occursAt pat s j := by
  induction s with
  | nil =>
    intro j hj
    have hp : pat <+: ([] : List Char) := by
      simpa [occursAt, List.drop_nil] using hj
    simp [findSub, if_pos hp] at h
    exact h ( List.prefix_nil.mp hp)
  | cons c rest ih =>
    intro j hj
    by_cases hp : pat <+: (c :: rest)
    · simp [findSub, if_pos hp] at h
    · simp only [findSub, if_neg hp, Option.map_eq_none'] at h
      cases j with
      | zero => exact hp (by simpa [occursAt] using hj)
      | succ k => exact ih h k (by simpa [occursAt, List.drop_succ_cons] using hj)

/-- Completeness: an occurrence forces `findSub` to succeed. -/
theorem findSub_isSome_of_occursAt {pat s : List Char} {j : Nat}
    (h : occursAt pat s j) : ∃ i, findSub pat s = some i := by
  cases hf : findSub pat s with
  | none => exact absurd h (findSub_none hf j)
  | some i => exact ⟨i, rfl⟩

/-- `findSub` computes exactly the first occurrence index. -/
theorem findSub_eq_some_iff {pat s : List Char} {i : Nat} :
    findSub pat s = some i ↔ firstOccurrenceAt pat s i := by
  constructor
  · intro h
    refine ⟨findSub_some_occursAt h, fun j hj hocc => ?_⟩
    have := findSub_some_min h j hocc
    omega
  · rintro ⟨hocc, hmin⟩
    obtain ⟨k, hk⟩ := findSub_isSome_of_occursAt hocc
    have h1 := findSub_some_min hk _ hocc
    have h2 := findSub_some_occursAt hk
    have h3 : ¬ k < i := fun hlt => hmin k hlt h2
    have h4 : k = i := by omega
    rw [h4] at hk
    exact hk

/-- `occurs` holds exactly when `findSub` succeeds. -/
theorem occurs_iff_findSub_isSome (pat s : List Char) :
    occurs pat s ↔ (findSub pat s).isSome = true := by
  constructor
  · rintro ⟨j, hj⟩
    obtain ⟨i, hi⟩ := findSub_isSome_of_occursAt hj
    simp [hi]
  · intro h
    cases hf : findSub pat s with
    | none => simp [hf] at h
    | some i => exact ⟨i, findSub_some_occursAt hf⟩

instance (pat s : List Char) : Decidable (occurs pat s) :=
  decidable_of_iff _ (occurs_iff_findSub_isSome pat s).symm

/-- `findSub` fails exactly when there is no occurrence. -/
theorem findSub_eq_none_iff {pat s : List Char} :
    findSub pat s = none ↔ ¬ occurs pat s := by
  rw [occurs_iff_findSub_isSome]
  cases findSub pat s <;> simp

/-- An occurrence in `X` is an occurrence in `X ++ Y`. -/
theorem occursAt_append_left {pat X : List Char} (Y : List Char) {i : Nat}
    (h : occursAt pat X i) : occursAt pat (X ++ Y) i := by
  unfold occursAt at h ⊢
  rw [List.drop_append_eq_append_drop]
  exact h.trans ( List.prefix_append _ _)

/-- An occurrence in `Y` shifts to an occurrence in `X ++ Y`. -/
theorem occursAt_append_right {pat Y : List Char} (X : List Char) {j : Nat}
    (h : occursAt pat Y j) : occursAt pat (X ++ Y) (X.length + j) := by
  unfold occursAt at h ⊢
  rw [List.drop_append_eq_append_drop, List.drop_eq_nil_of_le (by omega)]
  have h2 : X.length + j - X.length = j := by omega
  rw [h2, List.nil_append]
  exact h

/-- An occurrence in `X ++ Y` at an index past `X` is an occurrence in `Y`. -/
theorem occursAt_append_right_of_le {pat X Y : List Char} {i : Nat} (hle : X.length ≤ i)
    (h : occursAt pat (X ++ Y) i) : occursAt pat Y (i - X.length) := by
  unfold occursAt at h ⊢
  rwa [List.drop_append_eq_append_drop, List.drop_eq_nil_of_le hle, List.nil_append] at h

/-- An occurrence in `X ++ Y` that fits inside `X` is an occurrence in `X`. -/
theorem occursAt_append_left_of_le {pat X Y : List Char} {i : Nat}
    (hle : i + pat.length ≤ X.length) (h : occursAt pat (X ++ Y) i) : occursAt pat X i := by
  unfold occursAt at h ⊢
  rw [ List.prefix_iff_eq_take] at h ⊢
  rw [List.drop_append_eq_append_drop, List.take_append_eq_append_take] at h
  have hlen : pat.length - (X.drop i).length = 0 := by
    rw [List.length_drop]
    omega
  rwa [hlen, List.take_zero, List.append_nil] at h

/-- An occurrence in `l.take n` is an occurrence in `l`. -/
theorem occursAt_take {pat l : List Char} {n i : Nat}
    (h : occursAt pat (l.take n) i) : occursAt pat l i := by
  have h2 := occursAt_append_left (l.drop n) h
  rwa [List.take_append_drop] at h2

/-- An occurrence in `l.drop n` shifts to an occurrence in `l`. -/
theorem occursAt_drop {pat l : List Char} {n k : Nat}
    (h : occursAt pat (l.drop n) k) : occursAt pat l (n + k) := by
  unfold occursAt at h ⊢
  rwa [List.drop_drop] at h

/-- Character reading of an occurrence: the text agrees with the pattern at
every offset inside the pattern. -/
theorem occursAt_getElem {pat l : List Char} {i : Nat} (h : occursAt pat l i)
    {j : Nat} (hj : j < pat.length) : l[i + j]? = pat[j]? := by
  unfold occursAt at h
  obtain ⟨r, hr⟩ := h
  have h2 : (l.drop i)[j]? = pat[j]? := by
    rw [← hr]
    exact List.getElem?_append_left hj
  rwa [List.getElem?_drop] at h2

/-- An occurrence of a nonempty pattern lies inside the text's bounds. -/
theorem occursAt_bound {pat l : List Char} {i : Nat} (hne : pat ≠ [])
    (h : occursAt pat l i) : i + pat.length ≤ l.length := by
  have h2 : 0 < pat.length := List.length_pos.mpr hne
  have h1 : pat.length ≤ (l.drop i).length := List.IsPrefix.length_le h
  rw [List.length_drop] at h1
  omega

instance (pat s : List Char) (n : Nat) : Decidable (uniqueOccurrenceAt pat s n) :=
  match pat with
  | [] =>
    isFalse (fun h => by
      have h0 := h n (by simp [occursAt])
      have h1 := h (n + 1) (by simp [occursAt])
      omega)
  | c :: cs =>
    decidable_of_iff (∀ i, i < s.length + 1 → occursAt (c :: cs) s i → i = n)
      (by
        constructor
        · intro h i hocc
          have hb := occursAt_bound (by simp) hocc
          exact h i (by simp [List.length_cons] at hb; omega) hocc
        · intro h i _ hocc
          exact h i hocc)

/-- Bridge from `findSub` to `find` on the found side. -/
theorem find_eq_of_findSub_some {content pat : List Char} {i : Nat}
    (h : findSub pat content = some i) : find content pat = (i : Int) := by
  unfold find
  rw [h]

/-- Bridge from `findSub` to `find` on the not-found side. -/
theorem find_eq_of_findSub_none {content pat : List Char}
    (h : findSub pat content = none) : find content pat = -1 := by
  unfold find
  rw [h]

/-- The success branch of the script, characterised by `findSub`. -/
theorem run_success {content : List Char} {s e : Nat}
    (hs : findSub start_tag content = some s) (he : findSub end_tag content = some e) :
    run content =
      ⟨content.take s ++ linkTag ++ content.drop (e + end_tag.length), successMsg, true⟩ := by
  have h1 := find_eq_of_findSub_some hs
  have h2 := find_eq_of_findSub_some he
  unfold run
  rw [h1, h2, if_pos (by constructor <;> omega : ((s : Int) ≠ -1 ∧ (e : Int) ≠ -1))]
  simp

/-- The failure branch of the script when the start marker is absent. -/
theorem run_fail_left {content : List Char}
    (hs : findSub start_tag content = none) :
    run content = ⟨content, failMsg, false⟩ := by
  have h1 := find_eq_of_findSub_none hs
  unfold run
  rw [h1]
  simp

/-- The failure branch of the script when the end marker is absent. -/
theorem run_fail_right {content : List Char}
    (he : findSub end_tag content = none) :
    run content = ⟨content, failMsg, false⟩ := by
  have h2 := find_eq_of_findSub_none he
  unfold run
  rw [h2]
  simp

/-- The start marker is nonempty. -/
theorem start_tag_ne_nil : start_tag ≠ [] := by decide

/-- The end marker is nonempty. -/
theorem end_tag_ne_nil : end_tag ≠ [] := by decide

/-- The start marker has seven characters. -/
theorem start_tag_length : start_tag.length = 7 := by decide

/-- The end marker has eight characters. -/
theorem end_tag_length : end_tag.length = 8 := by decide

/-- The replacement literal has forty-five characters. -/
theorem linkTag_length : linkTag.length = 45 := by decide

/-- The only left angle bracket in the start marker is its first character. -/
theorem start_tag_lt_only_zero : ∀ j, j < 7 → start_tag[j]? = some '<' → j = 0 := by decide

/-- The only left angle bracket in the end marker is its first character. -/
theorem end_tag_lt_only_zero : ∀ j, j < 8 → end_tag[j]? = some '<' → j = 0 := by decide

/-- The only left angle bracket in the replacement literal is its first
character. -/
theorem linkTag_lt_only_zero : ∀ j, j < 45 → linkTag[j]? = some '<' → j = 0 := by decide

/-- C1: whenever both markers occur in the text, the script writes back
exactly the text before the first occurrence of the start marker, followed by
the fixed link literal, followed by the text starting right after the end of
the first occurrence of the end marker, each marker searched from the
beginning of the whole text independently of the other. -/
theorem writes_prefix_link_suffix {content : List Char} {s e : Nat}
    (hs : firstOccurrenceAt start_tag content s)
    (he : firstOccurrenceAt end_tag content e) :
    run content =
      ⟨content.take s ++ linkTag ++ content.drop (e + end_tag.length), successMsg, true⟩ :=
  run_success (findSub_eq_some_iff.mpr hs) (findSub_eq_some_iff.mpr he)

/-- Witness for C1 at the concrete text consisting of one empty style block. -/
theorem writes_prefix_link_suffix_witness :
    run ("<style></style>".toList) =
      ⟨("<style></style>".toList).take 0 ++ linkTag ++
          ("<style></style>".toList).drop (7 + end_tag.length), successMsg, true⟩ :=
  writes_prefix_link_suffix (by decide) (by decide)

/-- C2: if either marker is absent from the text, the script leaves the file
content completely unmodified, performs no write, and reports failure. -/
theorem no_write_when_marker_missing {content : List Char}
    (h : ¬ occurs start_tag content ∨ ¬ occurs end_tag content) :
    run content = ⟨content, failMsg, false⟩ := by
  cases h with
  | inl h1 => exact run_fail_left (findSub_eq_none_iff.mpr h1)
  | inr h2 => exact run_fail_right (findSub_eq_none_iff.mpr h2)

/-- Witness for C2 at a text holding a start marker but no end marker. -/
theorem no_write_when_marker_missing_witness :
    run ("<style>x".toList) = ⟨"<style>x".toList, failMsg, false⟩ :=
  no_write_when_marker_missing (Or.inr (by decide))

/-- C4: the script writes the file and reports success exactly when both
markers occur somewhere in the text, regardless of their relative order; in
particular a text whose first end marker precedes its first start marker
still takes the success branch. -/
theorem success_iff_both_markers_occur :
    (∀ content : List Char,
        ((run content).wrote = true ∧ (run content).printed = successMsg) ↔
          (occurs start_tag content ∧ occurs end_tag content)) ∧
    (run ("</style><style>".toList)).wrote = true ∧
    (run ("</style><style>".toList)).printed = successMsg := by
  refine ⟨fun content => ⟨?_, ?_⟩, by decide, by decide⟩
  · rintro ⟨hw, -⟩
    cases hs : findSub start_tag content with
    | none =>
      rw [run_fail_left hs] at hw
      simp at hw
    | some s =>
      cases he : findSub end_tag content with
      | none =>
        rw [run_fail_right he] at hw
        simp at hw
      | some e =>
        exact ⟨⟨s, findSub_some_occursAt hs⟩, ⟨e, findSub_some_occursAt he⟩⟩
  · rintro ⟨⟨i, hi⟩, ⟨j, hj⟩⟩
    obtain ⟨s, hs⟩ := findSub_isSome_of_occursAt hi
    obtain ⟨e, he⟩ := findSub_isSome_of_occursAt hj
    rw [run_success hs he]
    exact ⟨rfl, rfl⟩

/-- C6: the concrete scenario from the specification, a single style block
inside an html element, produces exactly the patched document and succeeds. -/
theorem concrete_replacement_scenario :
    run ("<html><style>body\x7bcolor:red\x7d</style></html>".toList) =
      ⟨"<html><link rel=\"stylesheet\" href=\"css/styles.css\"></html>".toList,
        successMsg, true⟩ := by
  decide

/-- C7: the concrete scenario from the specification with no style block
leaves the content unchanged, performs no write, and reports not-found. -/
theorem concrete_not_found_scenario :
    run ("<html><p>no style here</p></html>".toList) =
      ⟨"<html><p>no style here</p></html>".toList, failMsg, false⟩ := by
  decide

/-- C8: every run prints exactly one of the two literal status lines, and it
prints the success line exactly when it wrote the file. -/
theorem printed_line_cases (content : List Char) :
    ((run content).printed = successMsg ∨ (run content).printed = failMsg) ∧
    ((run content).printed = successMsg ↔ (run content).wrote = true) := by
  cases hs : findSub start_tag content with
  | none =>
    rw [run_fail_left hs]
    refine ⟨Or.inr rfl, ?_⟩
    show failMsg = successMsg ↔ (false : Bool) = true
    decide
  | some s =>
    cases he : findSub end_tag content with
    | none =>
      rw [run_fail_right he]
      refine ⟨Or.inr rfl, ?_⟩
      show failMsg = successMsg ↔ (false : Bool) = true
      decide
    | some e =>
      rw [run_success hs he]
      exact ⟨Or.inl rfl, by simp⟩

/-- C10: the in-memory transformation is total: on the success branch both
indices are in bounds, the drop index never exceeds the text length, and the
run is the well-defined concatenation of the prefix, the link literal, and
the tail. -/
theorem success_branch_indices_in_bounds {content : List Char} {s e : Nat}
    (hs : findSub start_tag content = some s) (he : findSub end_tag content = some e) :
    s + start_tag.length ≤ content.length ∧ e + end_tag.length ≤ content.length ∧
    run content =
      ⟨content.take s ++ linkTag ++ content.drop (e + end_tag.length), successMsg, true⟩ :=
  ⟨occursAt_bound start_tag_ne_nil (findSub_some_occursAt hs),
    occursAt_bound end_tag_ne_nil (findSub_some_occursAt he),
    run_success hs he⟩

/-- Witness for C10 at a text with one style block between two letters. -/
theorem success_branch_indices_in_bounds_witness :
    1 + start_tag.length ≤ ("a<style>b</style>c".toList).length ∧
    9 + end_tag.length ≤ ("a<style>b</style>c".toList).length ∧
    run ("a<style>b</style>c".toList) =
      ⟨("a<style>b</style>c".toList).take 1 ++ linkTag ++
          ("a<style>b</style>c".toList).drop (9 + end_tag.length), successMsg, true⟩ :=
  success_branch_indices_in_bounds (by decide) (by decide)

/-- C9: when the first occurrence of the end marker ends at or before the
first occurrence of the start marker, the script still reports success and
writes, yet the text it writes still contains the start marker. -/
theorem inverted_markers_leave_start_marker {content : List Char} {s e : Nat}
    (hs : firstOccurrenceAt start_tag content s)
    (he : firstOccurrenceAt end_tag content e)
    (hle : e + end_tag.length ≤ s) :
    (run content).printed = successMsg ∧ (run content).wrote = true ∧
    occurs start_tag (run content).fileContent := by
  have hrun := run_success (findSub_eq_some_iff.mpr hs) (findSub_eq_some_iff.mpr he)
  rw [hrun]
  refine ⟨rfl, rfl, ?_⟩
  have hocc : occursAt start_tag (content.drop (e + end_tag.length))
      (s - (e + end_tag.length)) := by
    unfold occursAt
    rw [List.drop_drop]
    have hidx : (e + end_tag.length) + (s - (e + end_tag.length)) = s := by omega
    rw [hidx]
    exact hs.1
  exact ⟨_, occursAt_append_right (content.take s ++ linkTag) hocc⟩

/-- Witness for C9 at a text whose end marker comes first. -/
theorem inverted_markers_leave_start_marker_witness :
    (run ("</style>x<style>".toList)).printed = successMsg ∧
    (run ("</style>x<style>".toList)).wrote = true ∧
    occurs start_tag (run ("</style>x<style>".toList)).fileContent :=
  @inverted_markers_leave_start_marker ("</style>x<style>".toList) 9 0
    (by decide) (by decide) (by decide)

/-- In `pre ++ (start_tag ++ rest)`, when the start marker does not occur in
`pre`, its first occurrence is exactly at `pre.length`: an earlier occurrence
would either lie inside `pre` or would have to place a later character of the
marker on the left angle bracket opening the real marker. -/
theorem firstOcc_start_in_decomposition (pre rest : List Char)
    (hpre : ¬ occurs start_tag pre) :
    firstOccurrenceAt start_tag (pre ++ (start_tag ++ rest)) pre.length := by
  have h7 : start_tag.length = 7 := start_tag_length
  constructor
  · have h0 : occursAt start_tag (start_tag ++ rest) 0 := by
      unfold occursAt
      simp
    have h1 := occursAt_append_right pre h0
    simpa using h1
  · intro j hj hocc
    by_cases hcase : j + start_tag.length ≤ pre.length
    · exact hpre ⟨j, occursAt_append_left_of_le hcase hocc⟩
    · have hchar := occursAt_getElem hocc (j := pre.length - j) (by omega)
      have hji : j + (pre.length - j) = pre.length := by omega
      rw [hji] at hchar
      have hhead : (pre ++ (start_tag ++ rest))[pre.length]? = some '<' := by
        rw [List.getElem?_append_right (Nat.le_refl _)]
        simp only [Nat.sub_self]
        rw [List.getElem?_append_left (show 0 < start_tag.length by omega)]
        decide
      rw [hhead] at hchar
      have hz := start_tag_lt_only_zero (pre.length - j) (by omega) hchar.symm
      omega

/-- In `pre ++ (start_tag ++ (body ++ (end_tag ++ suf)))`, when the end
marker occurs neither in `pre` nor in `body`, its first occurrence is exactly
at `pre.length + (7 + body.length)`: an earlier occurrence would lie inside
`pre` or `body`, start on the marker's opening bracket inside the start
marker, or place a later character of the end marker on an opening bracket. -/
theorem firstOcc_end_in_decomposition (pre body suf : List Char)
    (hpre : ¬ occurs end_tag pre) (hbody : ¬ occurs end_tag body) :
    firstOccurrenceAt end_tag (pre ++ (start_tag ++ (body ++ (end_tag ++ suf))))
      (pre.length + (7 + body.length)) := by
  have h7 : start_tag.length = 7 := start_tag_length
  have h8 : end_tag.length = 8 := end_tag_length
  constructor
  · have h0 : occursAt end_tag (end_tag ++ suf) 0 := by
      unfold occursAt
      simp
    have h1 := occursAt_append_right body h0
    have h2 := occursAt_append_right start_tag (by simpa using h1 :
      occursAt end_tag (body ++ (end_tag ++ suf)) body.length)
    have h3 := occursAt_append_right pre (by simpa [h7] using h2 :
      occursAt end_tag (start_tag ++ (body ++ (end_tag ++ suf))) (7 + body.length))
    simpa using h3
  · intro j hj hocc
    by_cases hcase1 : j + end_tag.length ≤ pre.length
    · exact hpre ⟨j, occursAt_append_left_of_le hcase1 hocc⟩
    by_cases hcase2 : j < pre.length
    · have hchar := occursAt_getElem hocc (j := pre.length - j) (by omega)
      have hji : j + (pre.length - j) = pre.length := by omega
      rw [hji] at hchar
      have hhead : (pre ++ (start_tag ++ (body ++ (end_tag ++ suf))))[pre.length]? =
          some '<' := by
        rw [List.getElem?_append_right (Nat.le_refl _)]
        simp only [Nat.sub_self]
        rw [List.getElem?_append_left (show 0 < start_tag.length by omega)]
        decide
      rw [hhead] at hchar
      have hz := end_tag_lt_only_zero (pre.length - j) (by omega) hchar.symm
      omega
    · have hocc2 := occursAt_append_right_of_le (show pre.length ≤ j by omega) hocc
      by_cases hcase3 : j - pre.length < 7
      · by_cases hcase4 : j - pre.length = 0
        · have hchar := occursAt_getElem hocc2 (j := 1) (by omega)
          rw [hcase4] at hchar
          simp only [Nat.zero_add] at hchar
          have hs1 : (start_tag ++ (body ++ (end_tag ++ suf)))[1]? = some 's' := by
            rw [List.getElem?_append_left (show 1 < start_tag.length by omega)]
            decide
          rw [hs1] at hchar
          have : end_tag[1]? = some '/' := by decide
          rw [this] at hchar
          simp at hchar
        · have hchar := occursAt_getElem hocc2 (j := 0) (by omega)
          simp only [Nat.add_zero] at hchar
          have hsj : (start_tag ++ (body ++ (end_tag ++ suf)))[j - pre.length]? =
              start_tag[j - pre.length]? :=
            List.getElem?_append_left (show j - pre.length < start_tag.length by omega)
          rw [hsj] at hchar
          have h0 : end_tag[0]? = some '<' := by decide
          rw [h0] at hchar
          have hz := start_tag_lt_only_zero (j - pre.length) (by omega) hchar
          omega
      · have hocc3 := occursAt_append_right_of_le
          (show start_tag.length ≤ j - pre.length by omega) hocc2
        rw [h7] at hocc3
        by_cases hcase5 : (j - pre.length - 7) + end_tag.length ≤ body.length
        · exact hbody ⟨j - pre.length - 7, occursAt_append_left_of_le hcase5 hocc3⟩
        · have hk : j - pre.length - 7 < body.length := by omega
          have hchar := occursAt_getElem hocc3
            (j := body.length - (j - pre.length - 7)) (by omega)
          have hji : (j - pre.length - 7) + (body.length - (j - pre.length - 7)) =
              body.length := by omega
          rw [hji] at hchar
          have hhead : (body ++ (end_tag ++ suf))[body.length]? = some '<' := by
            rw [List.getElem?_append_right (Nat.le_refl _)]
            simp only [Nat.sub_self]
            rw [List.getElem?_append_left (show 0 < end_tag.length by omega)]
            decide
          rw [hhead] at hchar
          have hz := end_tag_lt_only_zero (body.length - (j - pre.length - 7))
            (by omega) hchar.symm
          omega

/-- C3: one run on a text made of a prefix free of both markers, one
well-formed style block whose body is free of the end marker, and a suffix,
replaces exactly the block with the link literal and keeps the prefix and the
suffix byte-identical. -/
theorem single_block_replaced_frame {pre body suf : List Char}
    (hpre_start : ¬ occurs start_tag pre)
    (hpre_end : ¬ occurs end_tag pre)
    (hbody_end : ¬ occurs end_tag body) :
    run (pre ++ (start_tag ++ (body ++ (end_tag ++ suf)))) =
      ⟨pre ++ (linkTag ++ suf), successMsg, true⟩ := by
  have h7 : start_tag.length = 7 := start_tag_length
  have h8 : end_tag.length = 8 := end_tag_length
  have hs := findSub_eq_some_iff.mpr (firstOcc_start_in_decomposition pre
    (body ++ (end_tag ++ suf)) hpre_start)
  have he := findSub_eq_some_iff.mpr (firstOcc_end_in_decomposition pre body suf
    hpre_end hbody_end)
  rw [run_success hs he]
  have htake : (pre ++ (start_tag ++ (body ++ (end_tag ++ suf)))).take pre.length = pre :=
    List.take_left' rfl
  have hdrop : (pre ++ (start_tag ++ (body ++ (end_tag ++ suf)))).drop
      (pre.length + (7 + body.length) + end_tag.length) = suf := by
    have hC : pre ++ (start_tag ++ (body ++ (end_tag ++ suf))) =
        (pre ++ (start_tag ++ (body ++ end_tag))) ++ suf := by
      simp [List.append_assoc]
    rw [hC]
    exact List.drop_left' (by simp only [List.length_append, h7, h8]; omega)
  rw [htake, hdrop]
  simp [List.append_assoc]

/-- Witness for C3 at a one-letter prefix, body, and suffix. -/
theorem single_block_replaced_frame_witness :
    run ("a".toList ++ (start_tag ++ ("b".toList ++ (end_tag ++ "c".toList)))) =
      ⟨"a".toList ++ (linkTag ++ "c".toList), successMsg, true⟩ :=
  single_block_replaced_frame (by decide) (by decide) (by decide)

/-- No pattern that opens with a left angle bracket, has no other left angle
bracket, and differs from the link literal at offset one, occurs in the
patched text `content.take s ++ linkTag ++ content.drop e`, provided no
occurrence of the pattern in `content` fits before index `s` and none starts
at or after index `e`. -/
theorem no_occurrence_in_patched {content pat : List Char} {s e : Nat}
    (hslen : s ≤ content.length)
    (h0 : pat[0]? = some '<')
    (h1len : 1 < pat.length)
    (h1 : pat[1]? ≠ some 'l')
    (hx : ∀ j < pat.length, 0 < j → pat[j]? ≠ some '<')
    (hA : ∀ i, occursAt pat content i → ¬ (i + pat.length ≤ s))
    (hC : ∀ i, e ≤ i → ¬ occursAt pat content i) :
    ¬ occurs pat (content.take s ++ linkTag ++ content.drop e) := by
  rintro ⟨i, hocc⟩
  have h45 : linkTag.length = 45 := linkTag_length
  have hTlen : (content.take s).length = s := by
    rw [List.length_take]
    omega
  rw [List.append_assoc] at hocc
  by_cases hcase1 : i + pat.length ≤ s
  · have hoccT : occursAt pat (content.take s) i :=
      occursAt_append_left_of_le (by omega) hocc
    exact hA i (occursAt_take hoccT) hcase1
  by_cases hcase2 : i < s
  · have hchar := occursAt_getElem hocc (j := s - i) (by omega)
    have hji : i + (s - i) = s := by omega
    rw [hji] at hchar
    have hhead : (content.take s ++ (linkTag ++ content.drop e))[s]? = some '<' := by
      rw [List.getElem?_append_right (by omega)]
      rw [hTlen]
      simp only [Nat.sub_self]
      rw [List.getElem?_append_left (show 0 < linkTag.length by omega)]
      decide
    rw [hhead] at hchar
    have hz := hx (s - i) (by omega) (by omega) hchar.symm
    exact hz
  · have hocc2 : occursAt pat (linkTag ++ content.drop e) (i - s) := by
      have h2 := occursAt_append_right_of_le (show (content.take s).length ≤ i by omega) hocc
      rwa [hTlen] at h2
    by_cases hcase3 : i - s < 45
    · have hchar0 := occursAt_getElem hocc2 (j := 0) (by omega)
      simp only [Nat.add_zero] at hchar0
      rw [List.getElem?_append_left (show i - s < linkTag.length by omega), h0] at hchar0
      have hz := linkTag_lt_only_zero (i - s) (by omega) hchar0
      have hchar1 := occursAt_getElem hocc2 (j := 1) (by omega)
      rw [hz] at hchar1
      simp only [Nat.zero_add] at hchar1
      rw [List.getElem?_append_left (show 1 < linkTag.length by omega)] at hchar1
      have hl1 : linkTag[1]? = some 'l' := by decide
      rw [hl1] at hchar1
      exact h1 hchar1.symm
    · have hocc3 : occursAt pat (content.drop e) (i - s - 45) := by
        have h3 := occursAt_append_right_of_le
          (show linkTag.length ≤ i - s by omega) hocc2
        rwa [h45] at h3
      have hocc4 := occursAt_drop hocc3
      exact hC (e + (i - s - 45)) (by omega) hocc4

/-- C5: on a text with exactly one occurrence of each marker, the start
marker first, the patched output contains neither marker (none is created
across the concatenation boundaries), so running the script a second time on
the first run's output reports not-found and leaves that output unchanged. -/
theorem second_run_not_found {content : List Char} {s e : Nat}
    (hs : occursAt start_tag content s) (hsu : uniqueOccurrenceAt start_tag content s)
    (he : occursAt end_tag content e) (heu : uniqueOccurrenceAt end_tag content e)
    (hlt : s < e) :
    (run content).printed = successMsg ∧
    ¬ occurs start_tag (run content).fileContent ∧
    ¬ occurs end_tag (run content).fileContent ∧
    run ((run content).fileContent) = ⟨(run content).fileContent, failMsg, false⟩ := by
  have h7 : start_tag.length = 7 := start_tag_length
  have h8 : end_tag.length = 8 := end_tag_length
  have hfs : findSub start_tag content = some s :=
    findSub_eq_some_iff.mpr ⟨hs, fun j hj hocc => by have := hsu j hocc; omega⟩
  have hfe : findSub end_tag content = some e :=
    findSub_eq_some_iff.mpr ⟨he, fun j hj hocc => by have := heu j hocc; omega⟩
  have hbound := occursAt_bound start_tag_ne_nil hs
  have hnostart : ¬ occurs start_tag
      (content.take s ++ linkTag ++ content.drop (e + end_tag.length)) := by
    refine no_occurrence_in_patched (by omega) (by decide) (by decide) (by decide)
      (by decide) ?_ ?_
    · intro i hocc hle
      have := hsu i hocc
      omega
    · intro i hige hocc
      have := hsu i hocc
      omega
  have hnoend : ¬ occurs end_tag
      (content.take s ++ linkTag ++ content.drop (e + end_tag.length)) := by
    refine no_occurrence_in_patched (by omega) (by decide) (by decide) (by decide)
      (by decide) ?_ ?_
    · intro i hocc hle
      have := heu i hocc
      omega
    · intro i hige hocc
      have := heu i hocc
      omega
  rw [run_success hfs hfe]
  exact ⟨rfl, hnostart, hnoend,
    run_fail_left (findSub_eq_none_iff.mpr hnostart)⟩

/-- Witness for C5 at a text holding one style block with a one-letter body. -/
theorem second_run_not_found_witness :
    (run ("<style>b</style>".toList)).printed = successMsg ∧
    ¬ occurs start_tag (run ("<style>b</style>".toList)).fileContent ∧
    ¬ occurs end_tag (run ("<style>b</style>".toList)).fileContent ∧
    run ((run ("<style>b</style>".toList)).fileContent) =
      ⟨(run ("<style>b</style>".toList)).fileContent, failMsg, false⟩ :=
  @second_run_not_found ("<style>b</style>".toList) 0 8
    (by decide) (by decide) (by decide) (by decide) (by decide)

end UpdateStyles
